import Mathlib

/-!
Verification of the matching-strategy core of the `pdf_bounds_matching`
repository (`backend/app/matching_strategies.py`, `backend/app/strategy_factory.py`).

The Python code is shallowly embedded: strings are Lean `String`s, Python
floats that are only stored, compared and divided exactly are modelled as `ℚ`,
Python `int` as `Int`, and operations that can raise (list indexing inside
`ContextualMatchingStrategy.match`) return `Option`, with `none` standing for
a raised `IndexError`.  `rapidfuzz.fuzz.ratio` is the normalized indel
similarity scaled to `[0, 100]`, computed here exactly over `ℚ`.
-/

/-! ## Python string primitives -/

/-- Python's `str.lower()`, one character at a time, on the basic-latin
fragment: `Char.toLower` maps `A`–`Z` to `a`–`z` and leaves every other
character unchanged. -/
def pyLower (s : String) : String :=
  String.mk (s.data.map Char.toLower)

/-- Helper for `pySplit`: walks the character list, accumulating the current
word (in reverse) and emitting it when whitespace is met. -/
def pySplitAux : List Char → List Char → List String
  | [], cur => if cur = [] then [] else [String.mk cur.reverse]
  | c :: cs, cur =>
      if c.isWhitespace then
        if cur = [] then pySplitAux cs []
        else String.mk cur.reverse :: pySplitAux cs []
      else pySplitAux cs (c :: cur)

/-- Python's `str.split()` with no separator: split on runs of whitespace,
discarding empty pieces. -/
def pySplit (s : String) : List String :=
  pySplitAux s.data []

/-! ## Longest common subsequence and `fuzz.ratio` -/

/-- Helper for `lcs`: given `a` and the function `bs ↦ lcs as bs`, computes
`bs ↦ lcs (a :: as) bs` by structural recursion on `bs`. -/
def lcsCons (a : Char) (f : List Char → Nat) : List Char → Nat
  | [] => 0
  | b :: bs => if a = b then f bs + 1 else max (lcsCons a f bs) (f (b :: bs))

/-- Length of a longest common subsequence of two character lists. -/
def lcs : List Char → List Char → Nat
  | [], _ => 0
  | a :: as, bs => lcsCons a (lcs as) bs

/-- The rapidfuzz function `fuzz.ratio` as an exact rational: the indel distance of
`s`, `t` is `|s| + |t| - 2·lcs s t`, so the normalized indel similarity scaled
to `[0, 100]` is `200·lcs/(|s|+|t|)`; two empty strings score `100.0`. -/
def fuzzRatio (s t : String) : ℚ :=
  if s.data.length + t.data.length = 0 then 100
  else mkRat (200 * lcs s.data t.data) (s.data.length + t.data.length)

theorem lcs_nil_left (bs : List Char) : lcs [] bs = 0 := rfl

theorem lcs_nil_right (as : List Char) : lcs as [] = 0 := by
  cases as <;> rfl

theorem lcs_cons_cons (a b : Char) (as bs : List Char) :
    lcs (a :: as) (b :: bs) =
      if a = b then lcs as bs + 1 else max (lcs (a :: as) bs) (lcs as (b :: bs)) := rfl

theorem lcs_le_left (as bs : List Char) : lcs as bs ≤ as.length := by
  induction as generalizing bs with
  | nil => simp [lcs_nil_left]
  | cons a as ih =>
      induction bs with
      | nil => simp [lcs_nil_right]
      | cons b bs ihb =>
          rw [lcs_cons_cons]
          split
          · exact Nat.succ_le_succ (ih bs)
          · exact max_le ihb (le_trans (ih (b :: bs)) (Nat.le_succ _))

theorem lcs_le_right (as bs : List Char) : lcs as bs ≤ bs.length := by
  induction as generalizing bs with
  | nil => simp [lcs_nil_left]
  | cons a as ih =>
      induction bs with
      | nil => simp [lcs_nil_right]
      | cons b bs ihb =>
          rw [lcs_cons_cons]
          split
          · exact Nat.succ_le_succ (ih bs)
          · exact max_le (le_trans ihb (Nat.le_succ _)) (ih (b :: bs))

theorem lcs_self (as : List Char) : lcs as as = as.length := by
  induction as with
  | nil => rfl
  | cons a as ih => rw [lcs_cons_cons, if_pos rfl, ih]; rfl

theorem eq_of_lcs_eq (as bs : List Char)
    (h1 : as.length ≤ lcs as bs) (h2 : bs.length ≤ lcs as bs) : as = bs := by
  induction as generalizing bs with
  | nil =>
      rw [lcs_nil_left] at h2
      exact (List.eq_nil_of_length_eq_zero (Nat.le_zero.mp h2)).symm
  | cons a as ih =>
      cases bs with
      | nil => rw [lcs_nil_right] at h1; exact absurd h1 (by simp)
      | cons b bs =>
          rw [lcs_cons_cons] at h1 h2
          by_cases hab : a = b
          · rw [if_pos hab] at h1 h2
            simp only [List.length_cons, Nat.succ_le_succ_iff] at h1 h2
            rw [hab, ih bs h1 h2]
          · rw [if_neg hab] at h1 h2
            have hx := lcs_le_right (a :: as) bs
            have hy := lcs_le_left as (b :: bs)
            rcases Nat.le_total (lcs as (b :: bs)) (lcs (a :: as) bs) with hle | hle
            · rw [Nat.max_eq_left hle] at h2
              simp only [List.length_cons] at h2
              omega
            · rw [Nat.max_eq_right hle] at h1
              simp only [List.length_cons] at h1
              omega

theorem two_lcs_eq_iff (as bs : List Char) :
    2 * lcs as bs = as.length + bs.length ↔ as = bs := by
  constructor
  · intro h
    have h1 := lcs_le_left as bs
    have h2 := lcs_le_right as bs
    exact eq_of_lcs_eq as bs (by omega) (by omega)
  · intro h
    subst h
    rw [lcs_self]
    ring

theorem string_eq_of_data_eq {s t : String} (h : s.data = t.data) : s = t := by
  cases s
  cases t
  exact congrArg String.mk h

theorem fuzzRatio_nonneg (s t : String) : 0 ≤ fuzzRatio s t := by
  unfold fuzzRatio
  split
  · norm_num
  · rw [Rat.mkRat_eq_div]
    positivity

theorem fuzzRatio_le_100 (s t : String) : fuzzRatio s t ≤ 100 := by
  unfold fuzzRatio
  split
  · norm_num
  · rename_i h
    rw [Rat.mkRat_eq_div]
    rw [div_le_iff₀ (by positivity)]
    have h1 := lcs_le_left s.data t.data
    have h2 := lcs_le_right s.data t.data
    push_cast
    have : (lcs s.data t.data : ℚ) ≤ s.data.length ∧ (lcs s.data t.data : ℚ) ≤ t.data.length := by
      constructor <;> exact_mod_cast ‹_›
    nlinarith [this.1, this.2]

theorem fuzzRatio_eq_100_iff (s t : String) : fuzzRatio s t = 100 ↔ s = t := by
  unfold fuzzRatio
  split
  · rename_i h
    simp only [true_iff]
    have hs : s.data = [] := List.eq_nil_of_length_eq_zero (by omega)
    have ht : t.data = [] := List.eq_nil_of_length_eq_zero (by omega)
    exact string_eq_of_data_eq (hs.trans ht.symm)
  · rename_i h
    rw [Rat.mkRat_eq_div]
    rw [div_eq_iff (by positivity : ((s.data.length + t.data.length : Nat) : ℚ) ≠ 0)]
    constructor
    · intro heq
      have : 2 * lcs s.data t.data = s.data.length + t.data.length := by
        have : ((200 * lcs s.data t.data : Int) : ℚ)
            = 100 * ((s.data.length + t.data.length : Nat) : ℚ) := heq
        exact_mod_cast (by push_cast at this ⊢; linarith :
          (2 * lcs s.data t.data : ℚ) = ((s.data.length + t.data.length : Nat) : ℚ))
      exact string_eq_of_data_eq ((two_lcs_eq_iff _ _).mp this)
    · intro heq
      subst heq
      rw [lcs_self]
      push_cast
      ring

theorem fuzzRatio_self (s : String) : fuzzRatio s s = 100 :=
  (fuzzRatio_eq_100_iff s s).mpr rfl

/-! ## Lowercasing is idempotent -/

theorem char_toNat_ofNat_valid (n : Nat) (h : n.isValidChar) : (Char.ofNat n).toNat = n := by
  rw [Char.ofNat, dif_pos h]
  rfl

theorem toLower_toLower (c : Char) : c.toLower.toLower = c.toLower := by
  have h : ¬(c.toLower.toNat ≥ 65 ∧ c.toLower.toNat ≤ 90) := by
    simp only [Char.toLower]
    by_cases h : c.toNat ≥ 65 ∧ c.toNat ≤ 90
    · rw [if_pos h, char_toNat_ofNat_valid _ (Or.inl (by omega))]
      omega
    · rw [if_neg h]
      omega
  show (if c.toLower.toNat ≥ 65 ∧ c.toLower.toNat ≤ 90
      then Char.ofNat (c.toLower.toNat + 32) else c.toLower) = c.toLower
  rw [if_neg h]

theorem pyLower_idem (s : String) : pyLower (pyLower s) = pyLower s := by
  apply congrArg String.mk
  show (s.data.map Char.toLower).map Char.toLower = s.data.map Char.toLower
  rw [List.map_map]
  exact List.map_congr_left (fun c _ => toLower_toLower c)

/-! ## Data model (`pdf_extractor.TextBound`, `matching_strategies.MatchResult`) -/

/-- Record `TextBound` from `pdf_extractor.py`: one positioned text token. -/
structure TextBound where
  text : String
  x0 : ℚ
  y0 : ℚ
  x1 : ℚ
  y1 : ℚ
  page : Int
deriving DecidableEq, Repr

/-- Record `MatchResult` from `matching_strategies.py`. -/
structure MatchResult where
  text_bound : TextBound
  confidence : ℚ
  context : Option String
deriving DecidableEq, Repr

/-! ## The three strategies -/

/-- Method `ExactMatchingStrategy.match`: the loop appending one `MatchResult` with
confidence `100.0` for every token whose lowercased text equals the
lowercased entity. -/
def exactMatch (entity : String) (text_bounds : List TextBound) : List MatchResult :=
  let entity_lower := pyLower entity
  text_bounds.foldl
    (fun results tb =>
      if pyLower tb.text = entity_lower then results ++ [⟨tb, 100, none⟩] else results)
    []

/-- Method `FuzzyMatchingStrategy.match`: the loop computing
`fuzz.ratio(entity.lower(), tb.text.lower())` for every token and keeping
those scoring at least `threshold`. -/
def fuzzyMatch (threshold : ℚ) (entity : String) (text_bounds : List TextBound) :
    List MatchResult :=
  text_bounds.foldl
    (fun results tb =>
      let confidence := fuzzRatio (pyLower entity) (pyLower tb.text)
      if threshold ≤ confidence then results ++ [⟨tb, confidence, none⟩] else results)
    []

/-- Python list indexing `l[i]`: a negative index wraps around once, and an
out-of-range access (a raised `IndexError`) is `none`. -/
def pyGet (l : List TextBound) (i : Int) : Option TextBound :=
  let j : Int := if i < 0 then i + l.length else i
  if 0 ≤ j then l.get? j.toNat else none

/-- The window text at start `i`: the `k` tokens `g[i] … g[i+k-1]`,
lowercased and joined with single spaces
(`" ".join(bounds_list[i+j][1].text.lower() for j in range(k))`). -/
def windowText (k : Nat) (g : List TextBound) (i : Nat) : String :=
  String.intercalate " " (((g.drop i).take k).map (fun tb => pyLower tb.text))

/-- The context string for a window at start `i`: the original-case text of
the tokens at indices `max(0, i - cw) … min(len(g), i + k + cw)` (exclusive
end), joined with single spaces. -/
def ctxStr (cw : Int) (k : Nat) (g : List TextBound) (i : Nat) : String :=
  let context_start : Nat := (max 0 ((i : Int) - cw)).toNat
  let context_end : Int := min (g.length : Int) ((i : Int) + k + cw)
  String.intercalate " "
    (((g.drop context_start).take (context_end.toNat - context_start)).map (fun tb => tb.text))

/-- One iteration of the inner loop of `ContextualMatchingStrategy.match` at
window start `i`: if the window's `fuzz.ratio` clears the threshold, look up
`bounds_list[i]` and `bounds_list[i + k - 1]` (Python indexing — this is where
the `k = 0` crash lives) and emit the merged result. -/
def windowResults (cw : Int) (thr : ℚ) (el : String) (k : Nat) (p : Int)
    (g : List TextBound) (i : Nat) : Option (List MatchResult) :=
  let window_text := windowText k g i
  let confidence := fuzzRatio el window_text
  if thr ≤ confidence then
    let context := ctxStr cw k g i
    match pyGet g i, pyGet g ((i : Int) + k - 1) with
    | some fb, some lb =>
        some [⟨⟨window_text, fb.x0, fb.y0, lb.x1, lb.y1, p⟩, confidence, some context⟩]
    | _, _ => none
  else
    some []

/-- The inner loop of `ContextualMatchingStrategy.match` over one page group:
`for i in range(len(bounds_list) - len(entity_words) + 1)`, appending each
window's results.  `g.length + 1 - k` is Python's `len - k + 1` clipped at `0`
when `k > len + 1`; for `k = 0` it is `len + 1`, exactly like `range` on the
unclipped Python value. -/
def groupResults (cw : Int) (thr : ℚ) (el : String) (k : Nat) (p : Int)
    (g : List TextBound) : Option (List MatchResult) :=
  (List.range (g.length + 1 - k)).foldlM
    (fun acc i => do
      let r ← windowResults cw thr el k p g i
      pure (acc ++ r))
    []

/-- The iteration order of Python's `page_groups.items()`: pages in order of
first occurrence. -/
def firstKeys : List Int → List Int
  | [] => []
  | p :: ps => p :: (firstKeys ps).filter (fun q => q ≠ p)

/-- Method `ContextualMatchingStrategy.match`: split the lowercased entity into `k`
words, group the tokens by page preserving order of first occurrence, and run
the window search over every page group.  `none` models a raised
`IndexError`. -/
def contextualMatch (cw : Int) (thr : ℚ) (entity : String) (text_bounds : List TextBound) :
    Option (List MatchResult) :=
  let el := pyLower entity
  let k := (pySplit el).length
  (firstKeys (text_bounds.map (fun tb => tb.page))).foldlM
    (fun acc p => do
      let r ← groupResults cw thr el k p (text_bounds.filter (fun tb => tb.page = p))
      pure (acc ++ r))
    []

/-! ## Serialization (`to_dict`) -/

/-- Values of the Python dictionaries produced by `to_dict`. -/
inductive PyObj where
  | str : String → PyObj
  | num : ℚ → PyObj
  | intg : Int → PyObj
  | dict : List (String × PyObj) → PyObj

/-- Method `TextBound.to_dict`. -/
def TextBound.toDict (tb : TextBound) : List (String × PyObj) :=
  [("text", .str tb.text), ("x0", .num tb.x0), ("y0", .num tb.y0),
   ("x1", .num tb.x1), ("y1", .num tb.y1), ("page", .intg tb.page)]

/-- Method `MatchResult.to_dict`: the `"context"` key is added only when
`self.context` is truthy, i.e. a non-`None`, non-empty string. -/
def MatchResult.toDict (r : MatchResult) : List (String × PyObj) :=
  let result := [("match", PyObj.dict r.text_bound.toDict), ("confidence", PyObj.num r.confidence)]
  match r.context with
  | some c => if c = "" then result else result ++ [("context", PyObj.str c)]
  | none => result

/-! ## Factory (`strategy_factory.MatchingStrategyFactory`) -/

/-- A Python value passed through the factory's `**kwargs`: `None`, a float,
or an int. -/
inductive PyVal where
  | vNone : PyVal
  | vFloat : ℚ → PyVal
  | vInt : Int → PyVal
deriving DecidableEq, Repr

/-- Python's `kwargs.get(key, default)` over an association list with unique
keys. -/
def kwGet (kwargs : List (String × PyVal)) (key : String) (default : PyVal) : PyVal :=
  match kwargs.lookup key with
  | some v => v
  | none => default

/-- The strategy object built by the factory, holding the constructor
arguments it was given. -/
inductive StrategyObj where
  | exact : StrategyObj
  | fuzzy : PyVal → StrategyObj
  | contextual : PyVal → PyVal → StrategyObj
deriving DecidableEq, Repr

/-- Method `MatchingStrategyFactory.create_strategy`: dispatch on
`strategy_type.lower()`, raising `ValueError` (modelled as `.error`) on an
unknown name, otherwise reading parameters from `kwargs` with defaults
`threshold=80.0` (fuzzy), `context_window=3`, `threshold=70.0` (contextual). -/
def create_strategy (strategy_type : String) (kwargs : List (String × PyVal)) :
    Except String StrategyObj :=
  if pyLower strategy_type = "exact" then .ok .exact
  else if pyLower strategy_type = "fuzzy" then
    .ok (.fuzzy (kwGet kwargs "threshold" (.vFloat 80)))
  else if pyLower strategy_type = "contextual" then
    .ok (.contextual (kwGet kwargs "context_window" (.vInt 3))
      (kwGet kwargs "threshold" (.vFloat 70)))
  else
    .error ("Unknown strategy type: " ++ strategy_type ++
      ". Available types: exact, fuzzy, contextual")

/-! ## Generic fold lemmas -/

theorem foldlM_append_eq_some {α β : Type} (f : α → Option (List β)) (g : α → List β)
    (l : List α) : ∀ (acc : List β), (∀ x ∈ l, f x = some (g x)) →
    (l.foldlM (fun a x => do
      let r ← f x
      pure (a ++ r)) acc) = some (acc ++ l.flatMap g) := by
  induction l with
  | nil => intro acc _; simp [List.foldlM_nil]
  | cons x xs ih =>
      intro acc hall
      rw [List.foldlM_cons, hall x (by simp)]
      have h2 := ih (acc ++ g x) (fun y hy => hall y (by simp [hy]))
      rw [List.flatMap_cons, ← List.append_assoc]
      exact h2

theorem mem_of_foldlM_append {α β : Type} (f : α → Option (List β)) (l : List α) :
    ∀ (acc rs : List β),
      (l.foldlM (fun a x => do
        let r ← f x
        pure (a ++ r)) acc) = some rs →
      ∀ b ∈ rs, b ∈ acc ∨ ∃ x ∈ l, ∃ y, f x = some y ∧ b ∈ y := by
  induction l with
  | nil =>
      intro acc rs h b hb
      rw [List.foldlM_nil] at h
      cases h
      exact Or.inl hb
  | cons x xs ih =>
      intro acc rs h b hb
      rw [List.foldlM_cons] at h
      cases hfx : f x with
      | none => rw [hfx] at h; cases h
      | some y =>
          rw [hfx] at h
          have h' : (xs.foldlM (fun a x => do
            let r ← f x
            pure (a ++ r)) (acc ++ y)) = some rs := h
          rcases ih (acc ++ y) rs h' b hb with hmem | ⟨z, hz, w, hw, hbw⟩
          · rcases List.mem_append.mp hmem with h1 | h1
            · exact Or.inl h1
            · exact Or.inr ⟨x, by simp, y, hfx, h1⟩
          · exact Or.inr ⟨z, by simp [hz], w, hw, hbw⟩

theorem foldl_append_ite {α β : Type} (p : α → Prop) [DecidablePred p] (h : α → β)
    (l : List α) : ∀ (acc : List β),
    l.foldl (fun results x => if p x then results ++ [h x] else results) acc
      = acc ++ (l.filter (fun x => decide (p x))).map h := by
  induction l with
  | nil => intro acc; simp
  | cons x xs ih =>
      intro acc
      rw [List.foldl_cons]
      by_cases hx : p x
      · simp only [if_pos hx, ih, List.filter_cons, decide_eq_true hx, List.map_cons]
        simp
      · simp only [if_neg hx, ih, List.filter_cons, decide_eq_false hx]
        simp

theorem exactMatch_eq (entity : String) (tbs : List TextBound) :
    exactMatch entity tbs =
      (tbs.filter (fun tb => decide (pyLower tb.text = pyLower entity))).map
        (fun tb => (⟨tb, 100, none⟩ : MatchResult)) := by
  have h := foldl_append_ite (fun tb => pyLower tb.text = pyLower entity)
    (fun tb => (⟨tb, 100, none⟩ : MatchResult)) tbs []
  exact h.trans (by simp)

theorem fuzzyMatch_eq (thr : ℚ) (entity : String) (tbs : List TextBound) :
    fuzzyMatch thr entity tbs =
      (tbs.filter (fun tb => decide (thr ≤ fuzzRatio (pyLower entity) (pyLower tb.text)))).map
        (fun tb => (⟨tb, fuzzRatio (pyLower entity) (pyLower tb.text), none⟩ : MatchResult)) := by
  have h := foldl_append_ite (fun tb => thr ≤ fuzzRatio (pyLower entity) (pyLower tb.text))
    (fun tb => (⟨tb, fuzzRatio (pyLower entity) (pyLower tb.text), none⟩ : MatchResult)) tbs []
  exact h.trans (by simp)

/-! ## Specification form of the contextual search (for `k ≥ 1`) -/

/-- Specification of one window of the contextual search, following §4.4 of
the spec: if the window of `k` consecutive tokens starting at `i` clears the
threshold, emit one result whose bound spans from the first window token's
`(x0, y0)` to the last window token's `(x1, y1)`. -/
def windowSpec (cw : Int) (thr : ℚ) (el : String) (k : Nat) (p : Int)
    (g : List TextBound) (i : Nat) : List MatchResult :=
  if thr ≤ fuzzRatio el (windowText k g i) then
    match (g.drop i).take k with
    | [] => []
    | first :: rest =>
        [⟨⟨windowText k g i, first.x0, first.y0,
            (rest.getLastD first).x1, (rest.getLastD first).y1, p⟩,
          fuzzRatio el (windowText k g i), some (ctxStr cw k g i)⟩]
  else []

/-- Specification of the whole contextual search: pages in order of first
occurrence, and within each page every window start `i` in ascending order. -/
def contextualSpec (cw : Int) (thr : ℚ) (entity : String) (tbs : List TextBound) :
    List MatchResult :=
  let el := pyLower entity
  let k := (pySplit el).length
  (firstKeys (tbs.map (fun tb => tb.page))).flatMap (fun p =>
    let g := tbs.filter (fun tb => tb.page = p)
    (List.range (g.length + 1 - k)).flatMap (windowSpec cw thr el k p g))

theorem pyGet_eq_of_nonneg (g : List TextBound) (z : Int) (h0 : 0 ≤ z)
    (h : z.toNat < g.length) : pyGet g z = some (g[z.toNat]) := by
  simp only [pyGet]
  rw [if_neg (show ¬ z < 0 by omega), if_pos h0, List.get?_eq_getElem?,
    List.getElem?_eq_getElem h]

theorem window_take_eq (g : List TextBound) (k i : Nat) (hk : 1 ≤ k)
    (hik : i + k ≤ g.length) :
    ∃ first rest, (g.drop i).take k = first :: rest ∧
      first = g[i] ∧
      rest.getLastD first = g[i + (k - 1)] := by
  have hi : i < g.length := by omega
  have hdrop : g.drop i = g[i] :: g.drop (i + 1) := List.drop_eq_getElem_cons hi
  obtain ⟨k', rfl⟩ : ∃ k', k = k' + 1 := ⟨k - 1, by omega⟩
  refine ⟨g[i], (g.drop (i + 1)).take k', ?_, rfl, ?_⟩
  · rw [hdrop, List.take_succ_cons]
  · rcases Nat.eq_zero_or_pos k' with h0 | hpos
    · subst h0
      simp
    · have hlen : ((g.drop (i + 1)).take k').length = k' := by
        rw [List.length_take, List.length_drop]
        omega
      have hlast : ((g.drop (i + 1)).take k').getLast?
          = some (g[i + (k' + 1 - 1)]) := by
        rw [List.getLast?_eq_getElem?]
        simp only [hlen]
        rw [List.getElem?_take_of_lt (show k' - 1 < k' by omega),
          List.getElem?_eq_getElem (show k' - 1 < (g.drop (i + 1)).length by
            rw [List.length_drop]; omega)]
        rw [List.getElem_drop]
        simp only [show i + 1 + (k' - 1) = i + (k' + 1 - 1) from by omega]
      rw [List.getLastD_eq_getLast?, hlast]
      rfl

theorem windowResults_eq_spec (cw : Int) (thr : ℚ) (el : String) (k : Nat) (p : Int)
    (g : List TextBound) (i : Nat) (hk : 1 ≤ k) (hik : i + k ≤ g.length) :
    windowResults cw thr el k p g i = some (windowSpec cw thr el k p g i) := by
  obtain ⟨first, rest, hwin, hfirst, hlast⟩ := window_take_eq g k i hk hik
  have hf : pyGet g (i : Int) = some first := by
    rw [pyGet_eq_of_nonneg g i (by omega) (by simp only
      [show ((i : Int)).toNat = i from by omega]; omega)]
    simp only [show ((i : Int)).toNat = i from by omega]
    rw [hfirst]
  have hl : pyGet g ((i : Int) + k - 1) = some (rest.getLastD first) := by
    rw [pyGet_eq_of_nonneg g ((i : Int) + k - 1) (by omega) (by simp only
      [show ((i : Int) + k - 1).toNat = i + (k - 1) from by omega]; omega)]
    simp only [show ((i : Int) + k - 1).toNat = i + (k - 1) from by omega]
    rw [hlast]
  unfold windowResults windowSpec
  by_cases hc : thr ≤ fuzzRatio el (windowText k g i)
  · rw [if_pos hc, if_pos hc, hwin, hf, hl]
  · rw [if_neg hc, if_neg hc]

theorem groupResults_eq_spec (cw : Int) (thr : ℚ) (el : String) (k : Nat) (p : Int)
    (g : List TextBound) (hk : 1 ≤ k) :
    groupResults cw thr el k p g =
      some ((List.range (g.length + 1 - k)).flatMap (windowSpec cw thr el k p g)) := by
  have h := foldlM_append_eq_some (windowResults cw thr el k p g) (windowSpec cw thr el k p g)
    (List.range (g.length + 1 - k)) []
    (fun i hi => windowResults_eq_spec cw thr el k p g i hk
      (by have h2 := List.mem_range.mp hi; omega))
  exact h.trans (by simp)

theorem contextualMatch_eq_spec (cw : Int) (thr : ℚ) (entity : String)
    (tbs : List TextBound) (hk : 1 ≤ (pySplit (pyLower entity)).length) :
    contextualMatch cw thr entity tbs = some (contextualSpec cw thr entity tbs) := by
  have h := foldlM_append_eq_some
    (fun p => groupResults cw thr (pyLower entity) (pySplit (pyLower entity)).length p
      (tbs.filter (fun tb => tb.page = p)))
    (fun p => (List.range ((tbs.filter (fun tb => tb.page = p)).length + 1 -
        (pySplit (pyLower entity)).length)).flatMap
      (windowSpec cw thr (pyLower entity) (pySplit (pyLower entity)).length p
        (tbs.filter (fun tb => tb.page = p))))
    (firstKeys (tbs.map (fun tb => tb.page))) []
    (fun p _ => groupResults_eq_spec cw thr (pyLower entity)
      (pySplit (pyLower entity)).length p (tbs.filter (fun tb => tb.page = p)) hk)
  exact h.trans (by simp [contextualSpec])

/-! ## Window-level inversion lemmas -/

theorem windowResults_some_cases {cw : Int} {thr : ℚ} {el : String} {k : Nat} {p : Int}
    {g : List TextBound} {i : Nat} {w : List MatchResult}
    (hw : windowResults cw thr el k p g i = some w) :
    w = [] ∨ (thr ≤ fuzzRatio el (windowText k g i) ∧ ∃ fb lb : TextBound,
      w = [⟨⟨windowText k g i, fb.x0, fb.y0, lb.x1, lb.y1, p⟩,
        fuzzRatio el (windowText k g i), some (ctxStr cw k g i)⟩]) := by
  simp only [windowResults] at hw
  by_cases hc : thr ≤ fuzzRatio el (windowText k g i)
  · rw [if_pos hc] at hw
    cases h1 : pyGet g i with
    | none => rw [h1] at hw; exact Option.noConfusion hw
    | some fb =>
        cases h2 : pyGet g ((i : Int) + k - 1) with
        | none => rw [h1, h2] at hw; exact Option.noConfusion hw
        | some lb =>
            rw [h1, h2] at hw
            cases hw
            exact Or.inr ⟨hc, fb, lb, rfl⟩
  · rw [if_neg hc] at hw
    cases hw
    exact Or.inl rfl

theorem mem_windowSpec {cw : Int} {thr : ℚ} {el : String} {k : Nat} {p : Int}
    {g : List TextBound} {i : Nat} {r : MatchResult}
    (hr : r ∈ windowSpec cw thr el k p g i) :
    ∃ first rest, (g.drop i).take k = first :: rest ∧
      thr ≤ fuzzRatio el (windowText k g i) ∧
      r = ⟨⟨windowText k g i, first.x0, first.y0,
            (rest.getLastD first).x1, (rest.getLastD first).y1, p⟩,
          fuzzRatio el (windowText k g i), some (ctxStr cw k g i)⟩ := by
  simp only [windowSpec] at hr
  by_cases hc : thr ≤ fuzzRatio el (windowText k g i)
  · rw [if_pos hc] at hr
    cases hwin : (g.drop i).take k with
    | nil => rw [hwin] at hr; simp at hr
    | cons first rest =>
        rw [hwin] at hr
        simp only [List.mem_singleton] at hr
        exact ⟨first, rest, rfl, hc, hr⟩
  · rw [if_neg hc] at hr
    simp at hr

theorem mem_contextualSpec {cw : Int} {thr : ℚ} {entity : String} {tbs : List TextBound}
    {r : MatchResult} (hr : r ∈ contextualSpec cw thr entity tbs) :
    ∃ p ∈ firstKeys (tbs.map (fun tb => tb.page)),
      ∃ i ∈ List.range ((tbs.filter (fun tb => tb.page = p)).length + 1 -
          (pySplit (pyLower entity)).length),
        r ∈ windowSpec cw thr (pyLower entity) (pySplit (pyLower entity)).length p
          (tbs.filter (fun tb => tb.page = p)) i := by
  simp only [contextualSpec, List.mem_flatMap] at hr
  obtain ⟨p, hp, i, hi, hr⟩ := hr
  exact ⟨p, hp, i, hi, hr⟩

/-! ## Claims about the exact and fuzzy strategies -/

/-- Claim C2: for every entity string and token sequence,
`ExactMatchingStrategy.match` returns exactly the subsequence of results for
the tokens whose lowercased text equals the lowercased entity, in input token
order, each carrying that token's `TextBound` unchanged, confidence exactly
`100.0`, and no context. -/
theorem C2_exact_match (entity : String) (tbs : List TextBound) :
    exactMatch entity tbs =
      (tbs.filter (fun tb => decide (pyLower tb.text = pyLower entity))).map
        (fun tb => ⟨tb, 100, none⟩) :=
  exactMatch_eq entity tbs

/-- The confidence invariant of claim C3 for a single result: confidence in
`[0, 100]`, and exactly `100` only when the matched text equals the entity
modulo case. -/
def confOK (entity : String) (r : MatchResult) : Prop :=
  0 ≤ r.confidence ∧ r.confidence ≤ 100 ∧
    (r.confidence = 100 → pyLower r.text_bound.text = pyLower entity)

/-- Claim C3: for every strategy (Exact, Fuzzy, Contextual) with any
configuration, every emitted result has confidence in `[0, 100]`, and
confidence exactly `100.0` occurs only when the matched text (token text for
Exact/Fuzzy, window text for Contextual) equals the entity modulo case. -/
theorem C3_confidence_invariant (thr : ℚ) (cw : Int) (entity : String)
    (tbs : List TextBound) :
    (∀ r ∈ exactMatch entity tbs, confOK entity r) ∧
    (∀ r ∈ fuzzyMatch thr entity tbs, confOK entity r) ∧
    (∀ rs, contextualMatch cw thr entity tbs = some rs → ∀ r ∈ rs, confOK entity r) := by
  refine ⟨?_, ?_, ?_⟩
  · intro r hr
    rw [exactMatch_eq] at hr
    simp only [List.mem_map, List.mem_filter] at hr
    obtain ⟨tb, ⟨_, htb⟩, rfl⟩ := hr
    exact ⟨by norm_num, by norm_num, fun _ => of_decide_eq_true htb⟩
  · intro r hr
    rw [fuzzyMatch_eq] at hr
    simp only [List.mem_map, List.mem_filter] at hr
    obtain ⟨tb, ⟨_, _⟩, rfl⟩ := hr
    refine ⟨fuzzRatio_nonneg _ _, fuzzRatio_le_100 _ _, fun h100 => ?_⟩
    exact ((fuzzRatio_eq_100_iff _ _).mp h100).symm
  · intro rs hrs r hr
    have hrs' : ((firstKeys (tbs.map (fun tb => tb.page))).foldlM
        (fun acc p => do
          let r ← groupResults cw thr (pyLower entity) (pySplit (pyLower entity)).length p
            (tbs.filter (fun tb => tb.page = p))
          pure (acc ++ r)) ([] : List MatchResult)) = some rs := hrs
    have h1 := mem_of_foldlM_append
      (fun p => groupResults cw thr (pyLower entity) (pySplit (pyLower entity)).length p
        (tbs.filter (fun tb => tb.page = p)))
      (firstKeys (tbs.map (fun tb => tb.page))) [] rs hrs' r hr
    rcases h1 with habs | ⟨p, _, y, hy, hry⟩
    · simp at habs
    · have hy' : ((List.range ((tbs.filter (fun tb => tb.page = p)).length + 1 -
          (pySplit (pyLower entity)).length)).foldlM
        (fun acc i => do
          let r ← windowResults cw thr (pyLower entity) (pySplit (pyLower entity)).length p
            (tbs.filter (fun tb => tb.page = p)) i
          pure (acc ++ r)) ([] : List MatchResult)) = some y := hy
      have h2 := mem_of_foldlM_append
        (windowResults cw thr (pyLower entity) (pySplit (pyLower entity)).length p
          (tbs.filter (fun tb => tb.page = p)))
        (List.range ((tbs.filter (fun tb => tb.page = p)).length + 1 -
          (pySplit (pyLower entity)).length)) [] y hy' r hry
      rcases h2 with habs | ⟨i, _, w, hw, hrw⟩
      · simp at habs
      · rcases windowResults_some_cases hw with rfl | ⟨hc, fb, lb, rfl⟩
        · simp at hrw
        · simp only [List.mem_singleton] at hrw
          subst hrw
          refine ⟨fuzzRatio_nonneg _ _, fuzzRatio_le_100 _ _, fun h100 => ?_⟩
          have hwt := (fuzzRatio_eq_100_iff _ _).mp h100
          show pyLower (windowText (pySplit (pyLower entity)).length
            (tbs.filter (fun tb => tb.page = p)) i) = pyLower entity
          rw [← hwt, pyLower_idem]

/-- Concrete instantiation of claim C3's guarded conclusions: the token
`"ab"` matched against entity `"AB"` by the exact strategy. -/
theorem C3_confidence_invariant_witness :
    (⟨⟨"ab", 0, 0, 1, 1, 0⟩, 100, none⟩ : MatchResult) ∈
      exactMatch "AB" [⟨"ab", 0, 0, 1, 1, 0⟩] ∧
    confOK "AB" ⟨⟨"ab", 0, 0, 1, 1, 0⟩, 100, none⟩ :=
  ⟨by decide, (C3_confidence_invariant 80 3 "AB" [⟨"ab", 0, 0, 1, 1, 0⟩]).1 _ (by decide)⟩

/-- Counterexample to claim C4 as stated: with threshold `101` (claim C4
quantifies over *every* threshold) the token `"ab"` equals the entity `"ab"`
case-insensitively, yet `FuzzyMatchingStrategy.match` returns no result at
all, so no result has confidence `100.0`. -/
theorem C4_fuzzy_cex :
    (∃ tb ∈ [(⟨"ab", 0, 0, 1, 1, 0⟩ : TextBound)], pyLower tb.text = pyLower "ab") ∧
    fuzzyMatch 101 "ab" [⟨"ab", 0, 0, 1, 1, 0⟩] = [] ∧
    ¬ ∃ r ∈ fuzzyMatch 101 "ab" [⟨"ab", 0, 0, 1, 1, 0⟩], r.confidence = 100 := by
  decide

/-- Claim C4, amended with the hypothesis `threshold ≤ 100` (forced by the
counterexample): every fuzzy result has confidence in `[threshold, 100]`,
results follow input token order with no re-ranking (the output is exactly the
in-order filter of the tokens), and if some token's text equals the entity
case-insensitively then at least one result has confidence exactly `100.0`. -/
theorem C4_fuzzy_amended (thr : ℚ) (entity : String) (tbs : List TextBound)
    (hthr : thr ≤ 100) :
    fuzzyMatch thr entity tbs =
      (tbs.filter (fun tb => decide (thr ≤ fuzzRatio (pyLower entity) (pyLower tb.text)))).map
        (fun tb => ⟨tb, fuzzRatio (pyLower entity) (pyLower tb.text), none⟩) ∧
    (∀ r ∈ fuzzyMatch thr entity tbs, thr ≤ r.confidence ∧ r.confidence ≤ 100) ∧
    ((∃ tb ∈ tbs, pyLower tb.text = pyLower entity) →
      ∃ r ∈ fuzzyMatch thr entity tbs, r.confidence = 100) := by
  refine ⟨fuzzyMatch_eq thr entity tbs, ?_, ?_⟩
  · intro r hr
    rw [fuzzyMatch_eq] at hr
    simp only [List.mem_map, List.mem_filter] at hr
    obtain ⟨tb, ⟨_, htb⟩, rfl⟩ := hr
    exact ⟨of_decide_eq_true htb, fuzzRatio_le_100 _ _⟩
  · rintro ⟨tb, htb, heq⟩
    have hconf : fuzzRatio (pyLower entity) (pyLower tb.text) = 100 := by
      rw [heq]
      exact fuzzRatio_self _
    refine ⟨⟨tb, fuzzRatio (pyLower entity) (pyLower tb.text), none⟩, ?_, hconf⟩
    rw [fuzzyMatch_eq]
    exact List.mem_map.mpr ⟨tb, List.mem_filter.mpr
      ⟨htb, decide_eq_true (by rw [hconf]; exact hthr)⟩, rfl⟩

/-- Concrete instantiation of claim C4 (amended) at threshold `80`, entity
`"ab"`, one token `"ab"`. -/
theorem C4_fuzzy_amended_witness :
    (80 : ℚ) ≤ 100 ∧
    ∃ r ∈ fuzzyMatch 80 "ab" [(⟨"ab", 0, 0, 1, 1, 0⟩ : TextBound)], r.confidence = 100 :=
  ⟨by decide, (C4_fuzzy_amended 80 "ab" [⟨"ab", 0, 0, 1, 1, 0⟩] (by decide)).2.2
    ⟨⟨"ab", 0, 0, 1, 1, 0⟩, by decide, by decide⟩⟩

/-! ## Claims about the contextual strategy -/

/-- Claim C1 is contradicted by the code: for an entity whose whitespace-split
word list is empty (`k = 0`) the window loop runs over
`range(len(bounds_list) - 0 + 1)`, and since `fuzz.ratio("", "") = 100.0`
clears the default threshold for the empty entity, the iteration at
`i = len(bounds_list)` evaluates `bounds_list[len(bounds_list)]` and raises
`IndexError` (modelled as `none`) instead of returning the empty sequence. -/
theorem C1_contextual_empty_entity_bug :
    contextualMatch 3 70 "" [⟨"word", 0, 0, 1, 1, 0⟩] = none := by decide

/-- The synthesized-bound property of claim C5 for one result: the result's
bound is built from a window of `k` consecutive same-page tokens, spanning
from the first window token's `(x0, y0)` to the last window token's
`(x1, y1)`, on that shared page, with the lowercased single-space-joined
window text. -/
def synthBoundOK (entity : String) (tbs : List TextBound) (r : MatchResult) : Prop :=
  ∃ (p : Int) (i : Nat) (win : List TextBound) (h1 : win ≠ []),
    win = ((tbs.filter (fun tb => tb.page = p)).drop i).take
      (pySplit (pyLower entity)).length ∧
    win.length = (pySplit (pyLower entity)).length ∧
    (∀ tb ∈ win, tb.page = p) ∧
    r.text_bound.x0 = (win.head h1).x0 ∧
    r.text_bound.y0 = (win.head h1).y0 ∧
    r.text_bound.x1 = (win.getLast h1).x1 ∧
    r.text_bound.y1 = (win.getLast h1).y1 ∧
    r.text_bound.page = p ∧
    r.text_bound.text = String.intercalate " " (win.map (fun tb => pyLower tb.text))

/-- Extraction lemma: every member of `contextualSpec` comes from one window
of one page group. -/
theorem contextualSpec_result {cw : Int} {thr : ℚ} {entity : String} {tbs : List TextBound}
    {r : MatchResult} (hr : r ∈ contextualSpec cw thr entity tbs) :
    ∃ (p : Int) (i : Nat) (first : TextBound) (rest : List TextBound),
      p ∈ firstKeys (tbs.map (fun tb => tb.page)) ∧
      i + (pySplit (pyLower entity)).length ≤ (tbs.filter (fun tb => tb.page = p)).length ∧
      ((tbs.filter (fun tb => tb.page = p)).drop i).take (pySplit (pyLower entity)).length
        = first :: rest ∧
      thr ≤ fuzzRatio (pyLower entity) (windowText (pySplit (pyLower entity)).length
        (tbs.filter (fun tb => tb.page = p)) i) ∧
      r = ⟨⟨windowText (pySplit (pyLower entity)).length
              (tbs.filter (fun tb => tb.page = p)) i,
            first.x0, first.y0, (rest.getLastD first).x1, (rest.getLastD first).y1, p⟩,
          fuzzRatio (pyLower entity) (windowText (pySplit (pyLower entity)).length
            (tbs.filter (fun tb => tb.page = p)) i),
          some (ctxStr cw (pySplit (pyLower entity)).length
            (tbs.filter (fun tb => tb.page = p)) i)⟩ := by
  obtain ⟨p, hp, i, hi, hwin⟩ := mem_contextualSpec hr
  obtain ⟨first, rest, hw, hthr2, hreq⟩ := mem_windowSpec hwin
  have hik : i + (pySplit (pyLower entity)).length ≤
      (tbs.filter (fun tb => tb.page = p)).length := by
    have h2 := List.mem_range.mp hi
    omega
  exact ⟨p, i, first, rest, hp, hik, hw, hthr2, hreq⟩

/-- Every member of `contextualSpec` satisfies the synthesized-bound
property (shared workhorse for the window-shape claims). -/
theorem synthBoundOK_of_mem_spec {cw : Int} {thr : ℚ} {entity : String}
    {tbs : List TextBound} {r : MatchResult}
    (hr : r ∈ contextualSpec cw thr entity tbs) : synthBoundOK entity tbs r := by
  obtain ⟨p, i, first, rest, _, hik, hw, _, hreq⟩ := contextualSpec_result hr
  refine ⟨p, i, first :: rest, by simp, hw.symm, ?_, ?_, ?_⟩
  · rw [← hw, List.length_take, List.length_drop]
    omega
  · intro tb htb
    rw [← hw] at htb
    have h2 := List.mem_of_mem_drop (List.mem_of_mem_take htb)
    exact of_decide_eq_true (List.mem_filter.mp h2).2
  · subst hreq
    refine ⟨rfl, rfl, ?_, ?_, rfl, ?_⟩
    · show (rest.getLastD first).x1 = ((first :: rest).getLast (by simp)).x1
      rw [List.getLast_eq_getLastD]
    · show (rest.getLastD first).y1 = ((first :: rest).getLast (by simp)).y1
      rw [List.getLast_eq_getLastD]
    · show windowText (pySplit (pyLower entity)).length
          (tbs.filter (fun tb => tb.page = p)) i
        = String.intercalate " " ((first :: rest).map (fun tb => pyLower tb.text))
      rw [windowText, hw]

/-- Claim C5: for every entity with `k ≥ 1` whitespace-split words, every
result of `ContextualMatchingStrategy.match` carries a synthesized `TextBound`
whose `x0, y0` equal the first window token's `x0, y0`, whose `x1, y1` equal
the last window token's `x1, y1`, whose `page` equals the page shared by all
`k` window tokens, and whose text is the lowercased single-space-joined text
of the `k` window tokens. -/
theorem C5_contextual_merged_bound (cw : Int) (thr : ℚ) (entity : String)
    (tbs : List TextBound) (hk : 1 ≤ (pySplit (pyLower entity)).length) :
    ∀ rs, contextualMatch cw thr entity tbs = some rs →
      ∀ r ∈ rs, synthBoundOK entity tbs r := by
  intro rs hrs r hr
  rw [contextualMatch_eq_spec cw thr entity tbs hk] at hrs
  cases hrs
  exact synthBoundOK_of_mem_spec hr

/-- Concrete instantiation of claim C5: entity `"ab cd"` over the two tokens
`"ab"`, `"cd"` on page `0`. -/
theorem C5_contextual_merged_bound_witness :
    synthBoundOK "ab cd" [⟨"ab", 0, 0, 1, 1, 0⟩, ⟨"cd", 2, 0, 3, 1, 0⟩]
      ⟨⟨"ab cd", 0, 0, 3, 1, 0⟩, 100, some "ab cd"⟩ :=
  C5_contextual_merged_bound 3 70 "ab cd" [⟨"ab", 0, 0, 1, 1, 0⟩, ⟨"cd", 2, 0, 3, 1, 0⟩]
    (by decide) [⟨⟨"ab cd", 0, 0, 3, 1, 0⟩, 100, some "ab cd"⟩] (by decide) _ (by decide)

/-- The context property of claim C6 for one result emitted at window start
`i` in the page-`p` group `g` of length `n`: the context is the space-joined
original-case text of the group's tokens at indices `max(0, i - cw)` up to
`min(n, i + k + cw)` (exclusive). -/
def contextOK (cw : Int) (entity : String) (tbs : List TextBound) (r : MatchResult) : Prop :=
  ∃ (p : Int) (i : Nat),
    i + (pySplit (pyLower entity)).length ≤ (tbs.filter (fun tb => tb.page = p)).length ∧
    r.text_bound.text = windowText (pySplit (pyLower entity)).length
      (tbs.filter (fun tb => tb.page = p)) i ∧
    r.text_bound.page = p ∧
    r.context = some (String.intercalate " "
      ((((tbs.filter (fun tb => tb.page = p)).drop ((max 0 ((i : Int) - cw)).toNat)).take
        ((min (((tbs.filter (fun tb => tb.page = p)).length : Int))
          ((i : Int) + (pySplit (pyLower entity)).length + cw)).toNat -
          (max 0 ((i : Int) - cw)).toNat)).map (fun tb => tb.text)))

/-- Claim C6: every contextual match emitted at window start index `i` in a
page group of length `n`, with `k` entity words and context window `cw`, has
as its context string the space-joined original-case text of the group's
tokens at indices `max(0, i - cw)` through `min(n, i + k + cw)` exclusive. -/
theorem C6_contextual_context (cw : Int) (thr : ℚ) (entity : String)
    (tbs : List TextBound) (hk : 1 ≤ (pySplit (pyLower entity)).length) :
    ∀ rs, contextualMatch cw thr entity tbs = some rs →
      ∀ r ∈ rs, contextOK cw entity tbs r := by
  intro rs hrs r hr
  rw [contextualMatch_eq_spec cw thr entity tbs hk] at hrs
  cases hrs
  obtain ⟨p, i, first, rest, _, hik, _, _, hreq⟩ := contextualSpec_result hr
  subst hreq
  exact ⟨p, i, hik, rfl, rfl, rfl⟩

/-- Concrete instantiation of claim C6: entity `"ab cd"` over the two tokens
`"ab"`, `"cd"` on page `0`, context window `3`. -/
theorem C6_contextual_context_witness :
    contextOK 3 "ab cd" [⟨"ab", 0, 0, 1, 1, 0⟩, ⟨"cd", 2, 0, 3, 1, 0⟩]
      ⟨⟨"ab cd", 0, 0, 3, 1, 0⟩, 100, some "ab cd"⟩ :=
  C6_contextual_context 3 70 "ab cd" [⟨"ab", 0, 0, 1, 1, 0⟩, ⟨"cd", 2, 0, 3, 1, 0⟩]
    (by decide) [⟨⟨"ab cd", 0, 0, 3, 1, 0⟩, 100, some "ab cd"⟩] (by decide) _ (by decide)

/-- Claim C7: for `k ≥ 1` entity words, `ContextualMatchingStrategy.match`
succeeds and returns exactly `contextualSpec`: pages in stable first-occurrence
order, within each page *all* windows clearing the threshold in ascending
start-index order with no deduplication of overlapping windows; every result
is a window of exactly `k` consecutive tokens of a single page group; and a
page group with fewer than `k` tokens contributes no windows at all. -/
theorem C7_contextual_window_structure (cw : Int) (thr : ℚ) (entity : String)
    (tbs : List TextBound) (hk : 1 ≤ (pySplit (pyLower entity)).length) :
    contextualMatch cw thr entity tbs = some (contextualSpec cw thr entity tbs) ∧
    (∀ r ∈ contextualSpec cw thr entity tbs, synthBoundOK entity tbs r) ∧
    (∀ p : Int,
      (tbs.filter (fun tb => tb.page = p)).length < (pySplit (pyLower entity)).length →
      (List.range ((tbs.filter (fun tb => tb.page = p)).length + 1 -
          (pySplit (pyLower entity)).length)).flatMap
        (windowSpec cw thr (pyLower entity) (pySplit (pyLower entity)).length p
          (tbs.filter (fun tb => tb.page = p))) = []) := by
  refine ⟨contextualMatch_eq_spec cw thr entity tbs hk, ?_, ?_⟩
  · intro r hr
    exact synthBoundOK_of_mem_spec hr
  · intro p hlt
    have h0 : (tbs.filter (fun tb => tb.page = p)).length + 1 -
        (pySplit (pyLower entity)).length = 0 := by omega
    rw [h0]
    simp

/-- Concrete instantiation of claim C7: entity `"ab cd"` over the two tokens
`"ab"`, `"cd"` on page `0`. -/
theorem C7_contextual_window_structure_witness :
    contextualMatch 3 70 "ab cd" [⟨"ab", 0, 0, 1, 1, 0⟩, ⟨"cd", 2, 0, 3, 1, 0⟩]
      = some (contextualSpec 3 70 "ab cd" [⟨"ab", 0, 0, 1, 1, 0⟩, ⟨"cd", 2, 0, 3, 1, 0⟩]) :=
  (C7_contextual_window_structure 3 70 "ab cd"
    [⟨"ab", 0, 0, 1, 1, 0⟩, ⟨"cd", 2, 0, 3, 1, 0⟩] (by decide)).1

/-! ## Claims about the factory and serialization -/

/-- Claim C8: `create_strategy` matches the name case-insensitively against
`{"exact", "fuzzy", "contextual"}`; an unrecognized name yields a `ValueError`
whose message contains the offending name and all valid names, and for a
recognized name the result is the same for every letter-casing of the name. -/
theorem C8_factory_dispatch :
    (∀ (name : String) (kwargs : List (String × PyVal)),
      pyLower name ∉ ["exact", "fuzzy", "contextual"] →
      ∃ msg, create_strategy name kwargs = .error msg ∧
        (∃ u v, msg.data = u ++ name.data ++ v) ∧
        (∃ u v, msg.data = u ++ "exact".data ++ v) ∧
        (∃ u v, msg.data = u ++ "fuzzy".data ++ v) ∧
        (∃ u v, msg.data = u ++ "contextual".data ++ v)) ∧
    (∀ (n1 n2 : String) (kwargs : List (String × PyVal)),
      pyLower n1 = pyLower n2 → pyLower n1 ∈ ["exact", "fuzzy", "contextual"] →
      create_strategy n1 kwargs = create_strategy n2 kwargs) := by
  constructor
  · intro name kwargs hname
    have h1 : pyLower name ≠ "exact" := fun h => hname (by simp [h])
    have h2 : pyLower name ≠ "fuzzy" := fun h => hname (by simp [h])
    have h3 : pyLower name ≠ "contextual" := fun h => hname (by simp [h])
    refine ⟨"Unknown strategy type: " ++ name ++
      ". Available types: exact, fuzzy, contextual", ?_, ?_, ?_, ?_, ?_⟩
    · unfold create_strategy
      rw [if_neg h1, if_neg h2, if_neg h3]
    · exact ⟨"Unknown strategy type: ".data,
        ". Available types: exact, fuzzy, contextual".data, by simp⟩
    · refine ⟨"Unknown strategy type: ".data ++ name.data ++ ". Available types: ".data,
        ", fuzzy, contextual".data, ?_⟩
      have hsuf : ". Available types: exact, fuzzy, contextual".data
          = ". Available types: ".data ++ "exact".data ++ ", fuzzy, contextual".data := by
        decide
      simp [hsuf]
    · refine ⟨"Unknown strategy type: ".data ++ name.data ++
        ". Available types: exact, ".data, ", contextual".data, ?_⟩
      have hsuf : ". Available types: exact, fuzzy, contextual".data
          = ". Available types: exact, ".data ++ "fuzzy".data ++ ", contextual".data := by
        decide
      simp [hsuf]
    · refine ⟨"Unknown strategy type: ".data ++ name.data ++
        ". Available types: exact, fuzzy, ".data, [], ?_⟩
      have hsuf : ". Available types: exact, fuzzy, contextual".data
          = ". Available types: exact, fuzzy, ".data ++ "contextual".data ++ [] := by
        decide
      simp [hsuf]
  · intro n1 n2 kwargs heq hmem
    have hm : pyLower n1 = "exact" ∨ pyLower n1 = "fuzzy" ∨ pyLower n1 = "contextual" := by
      simpa using hmem
    unfold create_strategy
    rw [← heq]
    rcases hm with h | h | h <;> rw [h] <;> rfl

/-- Concrete instantiation of claim C8: `create("FUZZY", threshold=85.0)`
equals `create("fuzzy", threshold=85.0)`. -/
theorem C8_factory_dispatch_witness :
    create_strategy "FUZZY" [("threshold", PyVal.vFloat 85)]
      = create_strategy "fuzzy" [("threshold", PyVal.vFloat 85)] :=
  C8_factory_dispatch.2 "FUZZY" "fuzzy" [("threshold", PyVal.vFloat 85)]
    (by decide) (by decide)

/-- Claim C9: a declared default parameter value is applied only when the key
is entirely absent from the supplied params: a present key — even one mapped
to Python `None` — is passed through unchanged, and the defaults `80.0`,
`70.0` and `3` are used only for missing keys. -/
theorem C9_factory_param_passthrough (kwargs : List (String × PyVal)) :
    (∀ v, kwargs.lookup "threshold" = some v →
      create_strategy "fuzzy" kwargs = .ok (.fuzzy v)) ∧
    (kwargs.lookup "threshold" = none →
      create_strategy "fuzzy" kwargs = .ok (.fuzzy (.vFloat 80))) ∧
    (∀ v w, kwargs.lookup "threshold" = some v → kwargs.lookup "context_window" = some w →
      create_strategy "contextual" kwargs = .ok (.contextual w v)) ∧
    (∀ v, kwargs.lookup "threshold" = some v → kwargs.lookup "context_window" = none →
      create_strategy "contextual" kwargs = .ok (.contextual (.vInt 3) v)) ∧
    (∀ w, kwargs.lookup "threshold" = none → kwargs.lookup "context_window" = some w →
      create_strategy "contextual" kwargs = .ok (.contextual w (.vFloat 70))) ∧
    (kwargs.lookup "threshold" = none → kwargs.lookup "context_window" = none →
      create_strategy "contextual" kwargs = .ok (.contextual (.vInt 3) (.vFloat 70))) := by
  have hfz : create_strategy "fuzzy" kwargs
      = .ok (.fuzzy (kwGet kwargs "threshold" (.vFloat 80))) := rfl
  have hcx : create_strategy "contextual" kwargs
      = .ok (.contextual (kwGet kwargs "context_window" (.vInt 3))
          (kwGet kwargs "threshold" (.vFloat 70))) := rfl
  refine ⟨?_, ?_, ?_, ?_, ?_, ?_⟩
  · intro v h
    rw [hfz]
    simp [kwGet, h]
  · intro h
    rw [hfz]
    simp [kwGet, h]
  · intro v w ht hw
    rw [hcx]
    simp [kwGet, ht, hw]
  · intro v ht hw
    rw [hcx]
    simp [kwGet, ht, hw]
  · intro w ht hw
    rw [hcx]
    simp [kwGet, ht, hw]
  · intro ht hw
    rw [hcx]
    simp [kwGet, ht, hw]

/-- Concrete instantiation of claim C9: an explicit `threshold=None` is
passed through to the fuzzy strategy instead of the default `80.0`. -/
theorem C9_factory_param_passthrough_witness :
    create_strategy "fuzzy" [("threshold", PyVal.vNone)] = .ok (.fuzzy PyVal.vNone) :=
  (C9_factory_param_passthrough [("threshold", PyVal.vNone)]).1 PyVal.vNone (by decide)

/-- Claim C10: `MatchResult.to_dict` includes a `"context"` key iff the
context is a non-`None`, non-empty string; a result with empty-string context
serializes without a `"context"` key, and Exact/Fuzzy results (context
`None`) always serialize to exactly the keys `"match"` and `"confidence"`. -/
theorem C10_to_dict_context_key (r : MatchResult) (thr : ℚ) (entity : String)
    (tbs : List TextBound) :
    (("context" ∈ (MatchResult.toDict r).map Prod.fst) ↔
      ∃ c, r.context = some c ∧ c ≠ "") ∧
    (r.context = some "" → (MatchResult.toDict r).map Prod.fst = ["match", "confidence"]) ∧
    (r.context = none → (MatchResult.toDict r).map Prod.fst = ["match", "confidence"]) ∧
    (∀ r' ∈ exactMatch entity tbs,
      (MatchResult.toDict r').map Prod.fst = ["match", "confidence"]) ∧
    (∀ r' ∈ fuzzyMatch thr entity tbs,
      (MatchResult.toDict r').map Prod.fst = ["match", "confidence"]) := by
  have hkeys : ∀ r' : MatchResult, r'.context = none →
      (MatchResult.toDict r').map Prod.fst = ["match", "confidence"] := by
    intro r' h
    simp [MatchResult.toDict, h]
  refine ⟨?_, ?_, hkeys r, ?_, ?_⟩
  · cases hctx : r.context with
    | none => simp [MatchResult.toDict, hctx]
    | some c =>
        by_cases hc : c = ""
        · subst hc
          simp [MatchResult.toDict, hctx]
        · simp [MatchResult.toDict, hctx, hc]
  · intro h
    simp [MatchResult.toDict, h]
  · intro r' hr'
    rw [exactMatch_eq] at hr'
    simp only [List.mem_map, List.mem_filter] at hr'
    obtain ⟨tb, _, rfl⟩ := hr'
    exact hkeys _ rfl
  · intro r' hr'
    rw [fuzzyMatch_eq] at hr'
    simp only [List.mem_map, List.mem_filter] at hr'
    obtain ⟨tb, _, rfl⟩ := hr'
    exact hkeys _ rfl

/-- Concrete instantiation of claim C10: a result whose context is the empty
string serializes without a `"context"` key. -/
theorem C10_to_dict_context_key_witness :
    (MatchResult.toDict ⟨⟨"ab", 0, 0, 1, 1, 0⟩, 100, some ""⟩).map Prod.fst
      = ["match", "confidence"] :=
  (C10_to_dict_context_key ⟨⟨"ab", 0, 0, 1, 1, 0⟩, 100, some ""⟩ 80 "ab" []).2.1 rfl
